import Mathlib

/-!
Verification of the UVRPC DSL code generator (`tools/rpc_dsl_generator.py` and
`tools/rpc_dsl_generator_with_flatcc.py`).

Schema text is embedded as `List Char`.  Python string operations
(`str.strip`, `str.split`, `str.rstrip`, `str.lower`, substring tests) and
the three regular expressions used by the generator
(`namespace\s+(\w+);`, `table\s+(\w+)\s*\{([^}]+)\}`,
`rpc_service\s+(\w+)\s*\{([^}]+)\}`, and the method-line pattern
`(\w+)\s*\(\s*(\w+)\s*\)\s*:\s*(\w+)`) are modelled by explicit
character-list functions.  The regex patterns here only combine literal
characters, the classes `\w` / `\s` / `[^}]` and greedy repetition; since the
classes involved are pairwise disjoint and disjoint from the following
literal in every pattern, greedy matching without backtracking is exact.
`\w` and `\s` are modelled at their ASCII meaning, which is what every
schema in the repository uses.
-/

namespace UVRPC

/-- Schema text and all parsed tokens are lists of characters. -/
abbrev Str := List Char

/-- Coerce a Lean string literal to the character-list representation. -/
def str (s : String) : Str := s.data

/-- The character class `\w` of Python's `re` (ASCII part). -/
def isWordChar (c : Char) : Bool := c.isAlphanum || c == '_'

/-- The character class `\s` of Python's `re` (ASCII part), also the set
stripped by Python's `str.strip()`. -/
def isSpaceChar (c : Char) : Bool :=
  c == ' ' || c == '\t' || c == '\n' || c == '\r' || c == '\x0b' || c == '\x0c'

/-- Python `str.strip()`: remove leading and trailing whitespace. -/
def pyStrip (l : Str) : Str :=
  ((l.dropWhile isSpaceChar).reverse.dropWhile isSpaceChar).reverse

/-- Python `str.rstrip(';')`: remove every trailing `';'`. -/
def rstripSemi (l : Str) : Str :=
  (l.reverse.dropWhile (fun c => c == ';')).reverse

/-- Python `str.split(sep)` for a one-character separator: the resulting
list is always nonempty and keeps empty segments. -/
def splitOnChar (sep : Char) : Str → List Str
  | [] => [[]]
  | c :: rest =>
    match splitOnChar sep rest with
    | [] => [[c]]
    | h :: t => if c = sep then [] :: h :: t else (c :: h) :: t

/-- Match a literal character sequence at the head of the input and return
the remainder (the literal part of a regex pattern). -/
def stripPrefixCL : Str → Str → Option Str
  | [], l => some l
  | _, [] => none
  | p :: ps, c :: cs => if c = p then stripPrefixCL ps cs else none

/-- Python `dict` assignment `d[k] = v`: overwrite in place if the key is
present, otherwise append at the end (insertion order preserved). -/
def dictInsert (k : Str) (v : α) : List (Str × α) → List (Str × α)
  | [] => [(k, v)]
  | (k', v') :: rest =>
    if k' = k then (k, v) :: rest else (k', v') :: dictInsert k v rest

/-- Python `dict.get(k, dflt)`. -/
def dictGet (d : List (Str × α)) (k : Str) (dflt : α) : α :=
  match d with
  | [] => dflt
  | (k', v) :: rest => if k' = k then v else dictGet rest k dflt

/-- One parsed table field, as built by `RPCParser._parse_fields`. -/
structure Field where
  /-- the `'name'` entry -/
  name : Str
  /-- the `'type'` entry (mapped C type) -/
  type : Str
  /-- the `'original_type'` entry (declared DSL type) -/
  original_type : Str
  /-- the `'is_array'` entry -/
  is_array : Bool
deriving DecidableEq, Repr

/-- One parsed RPC method, as built by `RPCParser._parse_methods`.
The source stores the return type under both the `'return'` and the
`'response'` keys; `ret` models the `'return'` entry. -/
structure Method where
  name : Str
  ret : Str
  request : Str
  response : Str
  request_fields : List Field
deriving DecidableEq, Repr

/-- One parsed service (`'name'` and `'methods'` entries). -/
structure Service where
  name : Str
  methods : List Method
deriving DecidableEq, Repr

/-- The parsed schema returned by `RPCParser.parse` (the
`schema_basename` entry is a pass-through of the input file name, not
derived from the schema text, and is omitted).  `ns` models the
`'namespace'` entry. -/
structure Schema where
  ns : Str
  services : List Service
  tables : List (Str × List Field)
deriving DecidableEq, Repr

/-- The `type_mapping` dict of `_parse_fields`. -/
def type_mapping : List (Str × Str) :=
  [ (str "int32", str "int32_t"),
    (str "int64", str "int64_t"),
    (str "uint32", str "uint32_t"),
    (str "uint64", str "uint64_t"),
    (str "float", str "float"),
    (str "double", str "double"),
    (str "bool", str "bool"),
    (str "string", str "const char*"),
    (str "ubyte", str "uint8_t"),
    (str "byte", str "int8_t") ]

/-- The array/lookup step of `_parse_fields`: Python
`field_type.startswith('[') and field_type.endswith(']')` selects the
array case, which looks up `field_type[1:-1]` once in `type_mapping`
(defaulting to the inner token); otherwise `field_type` itself is looked
up once (defaulting to itself).  Returns `(c_type, is_array)`. -/
def mapType (field_type : Str) : Str × Bool :=
  if field_type.head? = some '[' ∧ field_type.getLast? = some ']' then
    let base := (field_type.drop 1).dropLast
    (dictGet type_mapping base base, true)
  else
    (dictGet type_mapping field_type field_type, false)

/-- The body of the field loop of `_parse_fields` for one line: strip the
line, skip it when blank or a `//` comment, split on `':'` and require
exactly two parts, strip the parts, strip trailing `';'` from the type,
and run the type mapping. -/
def parseFieldLine (line0 : Str) : Option Field :=
  let line := pyStrip line0
  if line = [] then none
  else if (str "//").isPrefixOf line then none
  else
    match splitOnChar ':' line with
    | [p1, p2] =>
      let field_name := pyStrip p1
      let field_type := rstripSemi (pyStrip p2)
      let ct := mapType field_type
      some { name := field_name, type := ct.1,
             original_type := field_type, is_array := ct.2 }
    | _ => none

/-- `RPCParser._parse_fields`: split the block body on newlines and run
the per-line step, keeping declaration order. -/
def _parse_fields (fields_str : Str) : List Field :=
  (splitOnChar '\n' fields_str).filterMap parseFieldLine

/-- `re.match(r'(\w+)\s*\(\s*(\w+)\s*\)\s*:\s*(\w+)', line)`: anchored at
the start of the line only; anything may follow the third identifier.
Returns the three captures `(name, request, return)`. -/
def matchMethodLine (l : Str) : Option (Str × Str × Str) :=
  let n := l.takeWhile isWordChar
  let a1 := (l.dropWhile isWordChar).dropWhile isSpaceChar
  let l2 := a1.tail.dropWhile isSpaceChar
  let r := l2.takeWhile isWordChar
  let a2 := (l2.dropWhile isWordChar).dropWhile isSpaceChar
  let a3 := a2.tail.dropWhile isSpaceChar
  let l5 := a3.tail.dropWhile isSpaceChar
  let t := l5.takeWhile isWordChar
  if n ≠ [] ∧ a1.head? = some '(' ∧ r ≠ [] ∧ a2.head? = some ')' ∧
      a3.head? = some ':' ∧ t ≠ [] then
    some (n, r, t)
  else none

/-- The body of the method loop of `_parse_methods` for one line: strip,
skip blanks and `//` comments, run the method regex, and on a match build
the method dict, resolving the request's field list against the table map
(`self.tables.get(request_type, [])`). -/
def parseMethodLine (tables : List (Str × List Field)) (line0 : Str) :
    Option Method :=
  let line := pyStrip line0
  if line = [] then none
  else if (str "//").isPrefixOf line then none
  else
    match matchMethodLine line with
    | some (method_name, request_type, return_type) =>
      some { name := method_name, ret := return_type,
             request := request_type, response := return_type,
             request_fields := dictGet tables request_type [] }
    | none => none

/-- `RPCParser._parse_methods`. -/
def _parse_methods (tables : List (Str × List Field)) (methods_str : Str) :
    List Method :=
  (splitOnChar '\n' methods_str).filterMap (parseMethodLine tables)

/-- The literal part of the namespace regex. -/
def nsLit : Str := str "namespace"

/-- Match `namespace\s+(\w+);` at the current position, returning the
captured identifier. -/
def matchNamespaceAt (l : Str) : Option Str :=
  match stripPrefixCL nsLit l with
  | none => none
  | some l1 =>
    let ws := l1.takeWhile isSpaceChar
    let l2 := l1.dropWhile isSpaceChar
    let w := l2.takeWhile isWordChar
    if ws ≠ [] ∧ w ≠ [] ∧ (l2.dropWhile isWordChar).head? = some ';' then
      some w
    else none

/-- `re.search(r'namespace\s+(\w+);', content)`: leftmost match wins. -/
def findNamespace : Str → Option Str
  | [] => none
  | c :: rest =>
    match matchNamespaceAt (c :: rest) with
    | some w => some w
    | none => findNamespace rest

/-- Match `<kw>\s+(\w+)\s*\{([^}]+)\}` at the current position, returning
the captured name, the captured body and the remainder of the input after
the match (the regexes for tables and services differ only in the
keyword; `[^}]+` stops at the first closing brace). -/
def matchBlockAt (kw : Str) (l : Str) : Option (Str × Str × Str) :=
  match stripPrefixCL kw l with
  | none => none
  | some l1 =>
    let ws1 := l1.takeWhile isSpaceChar
    let l2 := l1.dropWhile isSpaceChar
    let n := l2.takeWhile isWordChar
    let a1 := (l2.dropWhile isWordChar).dropWhile isSpaceChar
    let b := a1.tail.takeWhile (fun c => c != '}')
    let a2 := a1.tail.dropWhile (fun c => c != '}')
    if ws1 ≠ [] ∧ n ≠ [] ∧ a1.head? = some '{' ∧ b ≠ [] ∧
        a2.head? = some '}' then
      some (n, b, a2.tail)
    else none

/-- `re.finditer` scan: try the block pattern at each position from the
left; on a match continue after it, otherwise advance one character.
The fuel argument bounds the number of steps; every step consumes at
least one character, so fuel equal to the input length is exact. -/
def findBlocksAux (kw : Str) : Nat → Str → List (Str × Str)
  | 0, _ => []
  | _, [] => []
  | fuel + 1, c :: rest =>
    match matchBlockAt kw (c :: rest) with
    | some (n, b, rem) => (n, b) :: findBlocksAux kw fuel rem
    | none => findBlocksAux kw fuel rest

/-- All non-overlapping matches of the block pattern, leftmost first. -/
def findBlocks (kw : Str) (l : Str) : List (Str × Str) :=
  findBlocksAux kw l.length l

/-- Keyword of the table regex. -/
def tableKw : Str := str "table"

/-- Keyword of the service regex. -/
def serviceKw : Str := str "rpc_service"

/-- `RPCParser.parse` (of `tools/rpc_dsl_generator.py`): extract the
namespace, then collect every table block into the table dict (last
definition of a name wins), then build the service list, resolving each
method's request type against the completed table dict. -/
def parse (content : Str) : Schema :=
  let ns := (findNamespace content).getD []
  let tables := (findBlocks tableKw content).foldl
    (fun acc nb => dictInsert nb.1 (_parse_fields nb.2) acc) []
  let services := (findBlocks serviceKw content).map
    (fun nb => { name := nb.1, methods := _parse_methods tables nb.2 : Service })
  { ns := ns, services := services, tables := tables }

namespace WithFlatcc

/-- The field-line step of `RPCParser._parse_fields` of
`tools/rpc_dsl_generator_with_flatcc.py` (the class is duplicated
verbatim in that file). -/
def parseFieldLine (line0 : Str) : Option Field :=
  let line := pyStrip line0
  if line = [] then none
  else if (str "//").isPrefixOf line then none
  else
    match splitOnChar ':' line with
    | [p1, p2] =>
      let field_name := pyStrip p1
      let field_type := rstripSemi (pyStrip p2)
      let ct := mapType field_type
      some { name := field_name, type := ct.1,
             original_type := field_type, is_array := ct.2 }
    | _ => none

/-- `RPCParser._parse_fields` of the bundled-compiler variant. -/
def _parse_fields (fields_str : Str) : List Field :=
  (splitOnChar '\n' fields_str).filterMap WithFlatcc.parseFieldLine

/-- The method-line regex of the bundled-compiler variant (identical
pattern text). -/
def matchMethodLine (l : Str) : Option (Str × Str × Str) :=
  let n := l.takeWhile isWordChar
  let a1 := (l.dropWhile isWordChar).dropWhile isSpaceChar
  let l2 := a1.tail.dropWhile isSpaceChar
  let r := l2.takeWhile isWordChar
  let a2 := (l2.dropWhile isWordChar).dropWhile isSpaceChar
  let a3 := a2.tail.dropWhile isSpaceChar
  let l5 := a3.tail.dropWhile isSpaceChar
  let t := l5.takeWhile isWordChar
  if n ≠ [] ∧ a1.head? = some '(' ∧ r ≠ [] ∧ a2.head? = some ')' ∧
      a3.head? = some ':' ∧ t ≠ [] then
    some (n, r, t)
  else none

/-- The method-line step of `RPCParser._parse_methods` of the
bundled-compiler variant. -/
def parseMethodLine (tables : List (Str × List Field)) (line0 : Str) :
    Option Method :=
  let line := pyStrip line0
  if line = [] then none
  else if (str "//").isPrefixOf line then none
  else
    match WithFlatcc.matchMethodLine line with
    | some (method_name, request_type, return_type) =>
      some { name := method_name, ret := return_type,
             request := request_type, response := return_type,
             request_fields := dictGet tables request_type [] }
    | none => none

/-- `RPCParser._parse_methods` of the bundled-compiler variant. -/
def _parse_methods (tables : List (Str × List Field)) (methods_str : Str) :
    List Method :=
  (splitOnChar '\n' methods_str).filterMap (WithFlatcc.parseMethodLine tables)

/-- `RPCParser.parse` of the bundled-compiler variant: same namespace
regex, same table scan into a dict, same service scan. -/
def parse (content : Str) : Schema :=
  let ns := (findNamespace content).getD []
  let tables := (findBlocks tableKw content).foldl
    (fun acc nb => dictInsert nb.1 (WithFlatcc._parse_fields nb.2) acc) []
  let services := (findBlocks serviceKw content).map
    (fun nb => { name := nb.1,
                 methods := WithFlatcc._parse_methods tables nb.2 : Service })
  { ns := ns, services := services, tables := tables }

end WithFlatcc

/-- Python `str.lower()` (ASCII). -/
def lowerStr (l : Str) : Str := l.map Char.toLower

/-- `"{}_{}_<suffix>".format(namespace.lower(), service_name.lower())`,
the output filename of every generator method. -/
def artifactFile (ns svc suffix : Str) : Str :=
  lowerStr ns ++ '_' :: (lowerStr svc ++ '_' :: suffix)

/-- `RPCGenerator.generate_header`: writes one `api.h` per service of the
schema.  Generation is modelled by the ordered list of filenames the
method writes. -/
def generate_header (sch : Schema) : List Str :=
  sch.services.map (fun s => artifactFile sch.ns s.name (str "api.h"))

/-- `RPCGenerator.generate_common_header`: one `rpc_common.h` per service. -/
def generate_common_header (sch : Schema) : List Str :=
  sch.services.map (fun s => artifactFile sch.ns s.name (str "rpc_common.h"))

/-- `RPCGenerator.generate_common_code`: one `rpc_common.c` per service. -/
def generate_common_code (sch : Schema) : List Str :=
  sch.services.map (fun s => artifactFile sch.ns s.name (str "rpc_common.c"))

/-- `RPCGenerator.generate_server_stub`: one `server_stub.c` per service. -/
def generate_server_stub (sch : Schema) : List Str :=
  sch.services.map (fun s => artifactFile sch.ns s.name (str "server_stub.c"))

/-- `RPCGenerator.generate_client_code`: one `client.c` per service. -/
def generate_client_code (sch : Schema) : List Str :=
  sch.services.map (fun s => artifactFile sch.ns s.name (str "client.c"))

/-- `RPCGenerator.generate_broadcast_api`: one `api.h` per service,
rendered from the broadcast template (bundled-compiler variant only). -/
def generate_broadcast_api (sch : Schema) : List Str :=
  sch.services.map (fun s => artifactFile sch.ns s.name (str "api.h"))

/-- `RPCGenerator.generate_broadcast_publisher`: one
`broadcast_publisher.c` per service. -/
def generate_broadcast_publisher (sch : Schema) : List Str :=
  sch.services.map (fun s => artifactFile sch.ns s.name (str "broadcast_publisher.c"))

/-- `RPCGenerator.generate_broadcast_subscriber`: one
`broadcast_subscriber.c` per service. -/
def generate_broadcast_subscriber (sch : Schema) : List Str :=
  sch.services.map (fun s => artifactFile sch.ns s.name (str "broadcast_subscriber.c"))

/-- Python's substring test `pat in s`. -/
def containsSub (pat l : Str) : Bool :=
  l.tails.any (fun t => pat.isPrefixOf t)

/-- The generation loop of `main` in the bundled-compiler variant: for
each service, test `'Broadcast' in service['name']` and invoke the three
broadcast generators or the five request/response generators.  Each of
those generator methods itself loops over every service of the schema. -/
def mainGenerateWF (sch : Schema) : List Str :=
  (sch.services.map (fun sv =>
    if containsSub (str "Broadcast") sv.name then
      generate_broadcast_api sch ++
        (generate_broadcast_publisher sch ++ generate_broadcast_subscriber sch)
    else
      generate_header sch ++
        (generate_common_header sch ++
          (generate_server_stub sch ++
            (generate_client_code sch ++ generate_common_code sch))))).flatten

/-- The generation calls of `main` in `tools/rpc_dsl_generator.py`:
`generate_header`, `generate_server_stub`, `generate_client_code`, each
looping over every service. -/
def mainGeneratePlain (sch : Schema) : List Str :=
  generate_header sch ++ (generate_server_stub sch ++ generate_client_code sch)

/-- Observable steps of one `main` run: parsing the schema into the IR,
invoking the flatcc subprocess, and writing one artifact file. -/
inductive Event where
  | parseSchema : Event
  | invokeFlatcc : Event
  | writeFile : Str → Event
deriving DecidableEq, Repr

/-- The artifact files written during a list of events, in order. -/
def writesOf (evs : List Event) : List Str :=
  evs.filterMap (fun e => match e with
    | Event.writeFile f => some f
    | _ => none)

/-- Event trace of `main` of `tools/rpc_dsl_generator.py`, as a function
of the flatcc subprocess's exit code and the schema text: the schema is
parsed, then flatcc is invoked; on a non-zero exit code `main` returns 1
immediately, otherwise the three generator methods run and `main`
returns 0. -/
def mainEventsPlain (flatccCode : Int) (content : Str) : List Event :=
  Event.parseSchema :: Event.invokeFlatcc ::
    (if flatccCode ≠ 0 then []
     else (mainGeneratePlain (parse content)).map Event.writeFile)

/-- Return value of `main` of `tools/rpc_dsl_generator.py` (the process
exit code via `sys.exit(main())`). -/
def mainReturnPlain (flatccCode : Int) : Int :=
  if flatccCode ≠ 0 then 1 else 0

/-- Event trace of `main` of the bundled-compiler variant: identical
structure, with the mode-dispatching generation loop. -/
def mainEventsWF (flatccCode : Int) (content : Str) : List Event :=
  Event.parseSchema :: Event.invokeFlatcc ::
    (if flatccCode ≠ 0 then []
     else (mainGenerateWF (WithFlatcc.parse content)).map Event.writeFile)

/-- Return value of `main` of the bundled-compiler variant. -/
def mainReturnWF (flatccCode : Int) : Int :=
  if flatccCode ≠ 0 then 1 else 0

/-! ### Specification-side definitions

The following definitions are written from the words of the
specification claims (not from the source); each is compared against the
corresponding source-derived definition above. -/

/-- Modelled from the claim: the recursive type mapper of §4.1 — on a
bracket-enclosed token, recurse on the inner token for the resolved
type.  Fuel-driven; the inner token is shorter by two characters, so
fuel equal to the token length is exact. -/
def mapTypeClaimRecAux : Nat → Str → Str × Bool
  | 0, t => (dictGet type_mapping t t, false)
  | fuel + 1, t =>
    if t.head? = some '[' ∧ t.getLast? = some ']' then
      ((mapTypeClaimRecAux fuel ((t.drop 1).dropLast)).1, true)
    else
      (dictGet type_mapping t t, false)

/-- Modelled from the claim (C4): recursive array unwrapping. -/
def mapTypeClaimRec (t : Str) : Str × Bool := mapTypeClaimRecAux t.length t

/-- The claimed type mapper as amended: a bracket-enclosed token sets
`isArray` and looks the inner token up exactly once, with unmapped
tokens passed through; no recursion.  Written independently of
`mapType`: the primitive table is a decision chain and the bracket test
is a structural match. -/
def primLookup (t : Str) : Option Str :=
  if str "int32" = t then some (str "int32_t")
  else if str "int64" = t then some (str "int64_t")
  else if str "uint32" = t then some (str "uint32_t")
  else if str "uint64" = t then some (str "uint64_t")
  else if str "float" = t then some (str "float")
  else if str "double" = t then some (str "double")
  else if str "bool" = t then some (str "bool")
  else if str "string" = t then some (str "const char*")
  else if str "ubyte" = t then some (str "uint8_t")
  else if str "byte" = t then some (str "int8_t")
  else none

/-- The amended claim's type mapper (C4): one unwrap, one lookup. -/
def mapTypeOneLookup (t : Str) : Str × Bool :=
  if t.head? = some '[' ∧ t.getLast? = some ']' then
    ((primLookup ((t.drop 1).dropLast)).getD ((t.drop 1).dropLast), true)
  else
    ((primLookup t).getD t, false)

/-- Modelled from the claim (C5): split a field line on the *first*
colon; a line with no colon is skipped, every other processed line
contributes a field. -/
def parseFieldLineClaim (line0 : Str) : Option Field :=
  let line := pyStrip line0
  if line = [] then none
  else if (str "//").isPrefixOf line then none
  else if line.any (fun c => c == ':') then
    let p1 := line.takeWhile (fun c => c != ':')
    let p2 := (line.dropWhile (fun c => c != ':')).drop 1
    let field_name := pyStrip p1
    let field_type := rstripSemi (pyStrip p2)
    let ct := mapType field_type
    some { name := field_name, type := ct.1,
           original_type := field_type, is_array := ct.2 }
  else none

/-- Modelled from the claim (C6): the whole line matches
`identifier ( identifier ) : identifier`, optionally followed by `';'`,
with nothing after it.  Greedy scanning is exact here because the word
class, the space class and each following literal are pairwise
disjoint. -/
def methodLineFullMatchClaim (l : Str) : Bool :=
  let n := l.takeWhile isWordChar
  if n = [] then false else
  match (l.dropWhile isWordChar).dropWhile isSpaceChar with
  | '(' :: l1 =>
    let l2 := l1.dropWhile isSpaceChar
    let r := l2.takeWhile isWordChar
    if r = [] then false else
    match (l2.dropWhile isWordChar).dropWhile isSpaceChar with
    | ')' :: l3 =>
      match l3.dropWhile isSpaceChar with
      | ':' :: l4 =>
        let l5 := l4.dropWhile isSpaceChar
        let t := l5.takeWhile isWordChar
        if t = [] then false
        else
          decide (l5.dropWhile isWordChar = [] ∨ l5.dropWhile isWordChar = [';'])
      | _ => false
    | _ => false
  | _ => false

/-- Declarative form of a `namespace <identifier>;` statement occurring
in the schema text at offset `pre.length`:  `ws` is the nonempty
whitespace run and `w` the nonempty identifier, terminated by a literal
semicolon. -/
def NsStmtAt (content pre ws w post : Str) : Prop :=
  content = pre ++ (nsLit ++ (ws ++ (w ++ ';' :: post))) ∧
  ws ≠ [] ∧ ws.all isSpaceChar ∧ w ≠ [] ∧ w.all isWordChar

/-- Declarative form of "the line starts with
`identifier ( identifier ) : identifier`" (arbitrary trailing
characters allowed), used by the amended C6. -/
def MethodLineStart (l : Str) : Prop :=
  ∃ n ws1 ws2 r ws3 ws4 ws5 t rest,
    l = n ++ (ws1 ++ '(' :: (ws2 ++ (r ++ (ws3 ++ ')' ::
        (ws4 ++ ':' :: (ws5 ++ (t ++ rest))))))) ∧
    n ≠ [] ∧ n.all isWordChar ∧ r ≠ [] ∧ r.all isWordChar ∧
    t ≠ [] ∧ t.all isWordChar ∧
    ws1.all isSpaceChar ∧ ws2.all isSpaceChar ∧ ws3.all isSpaceChar ∧
    ws4.all isSpaceChar ∧ ws5.all isSpaceChar

/-- Declarative form of a `<kw> <Name> { <body> }` block occurring in the
schema text at offset `pre.length` (the body is the nonempty run of
non-`'}'` characters after the opening brace). -/
def BlockStmtAt (kw content pre ws1 name ws2 body rem : Str) : Prop :=
  content = pre ++ (kw ++ (ws1 ++ (name ++ (ws2 ++ '{' :: (body ++ '}' :: rem))))) ∧
  ws1 ≠ [] ∧ ws1.all isSpaceChar ∧ name ≠ [] ∧ name.all isWordChar ∧
  ws2.all isSpaceChar ∧ body ≠ [] ∧ body.all (fun c => c != '}')

/-- The final definition of table `n` in the schema text, per the claim
(C3): the fields of the last `table n { ... }` block, or `[]` when there
is none. -/
def lastTableFields (content n : Str) : List Field :=
  match ((findBlocks tableKw content).filter (fun p => p.1 = n)).getLast? with
  | some p => _parse_fields p.2
  | none => []

/-! ### Helper lemmas -/

theorem space_not_word {c : Char} (h : isSpaceChar c = true) :
    isWordChar c = false := by
  simp only [isSpaceChar, Bool.or_eq_true, beq_iff_eq] at h
  rcases h with ((((h | h) | h) | h) | h) | h <;> subst h <;> decide

theorem word_not_space {c : Char} (h : isWordChar c = true) :
    isSpaceChar c = false := by
  cases hs : isSpaceChar c
  · rfl
  · exact absurd (space_not_word hs) (by simp [h])

theorem stripPrefixCL_eq_some {p l l' : Str} :
    stripPrefixCL p l = some l' ↔ l = p ++ l' := by
  induction p generalizing l with
  | nil => simp [stripPrefixCL]
  | cons x xs ih =>
    cases l with
    | nil => simp [stripPrefixCL]
    | cons c cs =>
      by_cases hc : c = x
      · subst hc
        simp [stripPrefixCL, ih]
      · rw [List.cons_append]
        simp [stripPrefixCL, hc]

set_option maxHeartbeats 1000000 in
theorem dictGet_type_mapping (u : Str) :
    dictGet type_mapping u u = (primLookup u).getD u := by
  simp only [type_mapping, dictGet, primLookup]
  split_ifs <;> rfl

/-! ### C10: the two parser variants agree -/

/-- C10: for every schema text, the parser of the plain generator variant
and the parser of the bundled-compiler generator variant produce equal
results — same namespace, same table map and same ordered service list. -/
theorem C10_parsers_agree (content : Str) :
    WithFlatcc.parse content = parse content := rfl

/-! ### C4: the type mapper does not recurse on array tokens -/

/-- C4 counterexample: on the doubly bracketed token `[[int32]]` the
source's type mapper performs a single unwrap and lookup, yielding
`[int32]`, while the claimed recursive mapper would yield `int32_t`. -/
theorem C4_counterexample :
    mapType (str "[[int32]]") = (str "[int32]", true) ∧
    mapTypeClaimRec (str "[[int32]]") = (str "int32_t", true) ∧
    str "[int32]" ≠ str "int32_t" := by
  refine ⟨by decide, by decide, by decide⟩

/-- C4 as amended: the type mapper is total; a bracket-enclosed token
sets `isArray` and resolves by looking the inner token up exactly once
in the case-sensitive table (unmapped tokens, bracketed or not, pass
through unchanged); there is no recursion, so nested brackets are kept
in the resolved type. -/
theorem C4_amended (t : Str) : mapType t = mapTypeOneLookup t := by
  by_cases h : t.head? = some '[' ∧ t.getLast? = some ']'
  · simp only [mapType, mapTypeOneLookup, if_pos h, dictGet_type_mapping]
  · simp only [mapType, mapTypeOneLookup, if_neg h, dictGet_type_mapping]

/-! ### C1: per-service artifact sets -/

/-- Mixed-mode failing input for C1: namespace `App` with a broadcast
service `ChatBroadcast` and a request/response service `Calculator`. -/
def mixedSchemaText : Str :=
  str "namespace App; rpc_service ChatBroadcast \x7b Ping(A):B; \x7d rpc_service Calculator \x7b Add(X):Y; \x7d"

/-- C1 evaluated at the failing input (code bug): the bundled-compiler
generation loop writes broadcast artifacts for the request/response
service `Calculator` and request/response artifacts for the broadcast
service `ChatBroadcast`, because each per-service dispatch invokes
generator methods that loop over every service of the schema; and the
plain variant never writes the `rpc_common` artifacts at all. -/
theorem C1_bug_eval :
    str "app_calculator_broadcast_publisher.c"
      ∈ mainGenerateWF (WithFlatcc.parse mixedSchemaText) ∧
    str "app_chatbroadcast_server_stub.c"
      ∈ mainGenerateWF (WithFlatcc.parse mixedSchemaText) ∧
    str "app_calculator_rpc_common.h"
      ∉ mainGeneratePlain (parse mixedSchemaText) := by
  refine ⟨by decide, by decide, by decide⟩

/-! ### C2: non-zero compiler exit writes nothing and fails -/

/-- C2: in both generator variants, whenever the flatcc subprocess
returns a non-zero exit code, the run writes zero artifact files and
`main` returns the non-zero value 1. -/
theorem C2_fatal_exit (code : Int) (content : Str) (h : code ≠ 0) :
    writesOf (mainEventsPlain code content) = [] ∧ mainReturnPlain code ≠ 0 ∧
    writesOf (mainEventsWF code content) = [] ∧ mainReturnWF code ≠ 0 := by
  refine ⟨?_, ?_, ?_, ?_⟩ <;>
    simp [mainEventsPlain, mainEventsWF, mainReturnPlain, mainReturnWF,
      writesOf, h]

/-- Witness for C2 at exit code 1 and the empty schema. -/
theorem C2_fatal_exit_witness :
    (1 : Int) ≠ 0 ∧
    (writesOf (mainEventsPlain 1 (str "")) = [] ∧ mainReturnPlain 1 ≠ 0 ∧
     writesOf (mainEventsWF 1 (str "")) = [] ∧ mainReturnWF 1 ≠ 0) :=
  ⟨by decide, C2_fatal_exit 1 (str "") (by decide)⟩

/-! ### C8: order of parsing and compiler invocation -/

/-- Event `a` occurs strictly before event `b` in the trace. -/
def precedesIn (a b : Event) (evs : List Event) : Prop :=
  ∃ i j : Nat, i < j ∧ evs[i]? = some a ∧ evs[j]? = some b

/-- C8 counterexample: in a concrete run of either variant the compiler
invocation does not precede the schema parse — the trace starts with the
parse step and the flatcc invocation comes second. -/
theorem C8_counterexample :
    mainEventsWF 1 (str "") = [Event.parseSchema, Event.invokeFlatcc] ∧
    ¬ precedesIn Event.invokeFlatcc Event.parseSchema (mainEventsWF 1 (str "")) := by
  constructor
  · decide
  · rintro ⟨i, j, hij, hi, hj⟩
    have htr : mainEventsWF 1 (str "") = [Event.parseSchema, Event.invokeFlatcc] := by decide
    rw [htr] at hi hj
    match i, hi with
    | 0, hi => simp at hi
    | 1, hi =>
      have hj2 : 2 ≤ j := by omega
      rw [List.getElem?_eq_none (by simpa using hj2)] at hj
      exact Option.noConfusion hj

/-- C8 as amended: in every run of either variant the orchestrator parses
the schema into the IR first, invokes the external schema compiler
second, and only after both does it write any artifact. -/
theorem C8_amended (code : Int) (content : Str) :
    (∃ rest, mainEventsPlain code content =
        Event.parseSchema :: Event.invokeFlatcc :: rest ∧
      ∀ e ∈ rest, ∃ f, e = Event.writeFile f) ∧
    (∃ rest, mainEventsWF code content =
        Event.parseSchema :: Event.invokeFlatcc :: rest ∧
      ∀ e ∈ rest, ∃ f, e = Event.writeFile f) := by
  constructor
  · refine ⟨_, rfl, ?_⟩
    intro e he
    split at he
    · simp at he
    · obtain ⟨f, _, rfl⟩ := List.mem_map.mp he
      exact ⟨f, rfl⟩
  · refine ⟨_, rfl, ?_⟩
    intro e he
    split at he
    · simp at he
    · obtain ⟨f, _, rfl⟩ := List.mem_map.mp he
      exact ⟨f, rfl⟩

/-! ### C5: field-line splitting -/

theorem splitOnChar_ne_nil (sep : Char) (l : Str) : splitOnChar sep l ≠ [] := by
  cases l with
  | nil => simp [splitOnChar]
  | cons c rest =>
    simp only [splitOnChar]
    cases splitOnChar sep rest with
    | nil => simp
    | cons h t =>
      by_cases hc : c = sep <;> simp [hc]

theorem splitOnChar_length (sep : Char) (l : Str) :
    (splitOnChar sep l).length = l.count sep + 1 := by
  induction l with
  | nil => simp [splitOnChar]
  | cons c rest ih =>
    obtain ⟨h, t, heq⟩ := List.exists_cons_of_ne_nil (splitOnChar_ne_nil sep rest)
    rw [heq] at ih
    by_cases hc : c = sep
    · subst hc
      simp_all [splitOnChar, heq, List.count_cons]
    · simp_all [splitOnChar, heq, List.count_cons, hc]

theorem splitOnChar_append (sep : Char) (a b : Str) :
    splitOnChar sep (a ++ sep :: b) =
      splitOnChar sep a ++ splitOnChar sep b := by
  induction a with
  | nil =>
    obtain ⟨h, t, heq⟩ := List.exists_cons_of_ne_nil (splitOnChar_ne_nil sep b)
    simp [splitOnChar, heq]
  | cons x xs ih =>
    obtain ⟨h2, t2, heq2⟩ := List.exists_cons_of_ne_nil (splitOnChar_ne_nil sep xs)
    rw [List.cons_append]
    simp only [splitOnChar, ih, heq2]
    by_cases hx : x = sep <;> simp [hx]

theorem splitOnChar_of_not_mem {sep : Char} {a : Str} (h : sep ∉ a) :
    splitOnChar sep a = [a] := by
  induction a with
  | nil => simp [splitOnChar]
  | cons x xs ih =>
    have hx : x ≠ sep := fun he => h (he ▸ List.mem_cons_self x xs)
    have hxs : sep ∉ xs := fun hm => h (List.mem_cons_of_mem x hm)
    simp [splitOnChar, ih hxs, hx]

theorem _parse_fields_append (bodyA bodyB : Str) :
    _parse_fields (bodyA ++ '\n' :: bodyB) =
      _parse_fields bodyA ++ _parse_fields bodyB := by
  simp [_parse_fields, splitOnChar_append, List.filterMap_append]

/-- C5 counterexample: the table-body line `a:b:c` contains a colon, so
per the claim it should be split on the first `':'` into the field name
`a` and the declared type `b:c`; the source instead splits on every
colon, gets three parts, and silently skips the line. -/
theorem C5_counterexample :
    parseFieldLine (str "a:b:c") = none ∧
    parseFieldLineClaim (str "a:b:c") =
      some { name := str "a", type := str "b:c",
             original_type := str "b:c", is_array := false } ∧
    _parse_fields (str "a:b:c") = [] := by
  refine ⟨by decide, by decide, by decide⟩

/-- C5 as amended: a table-body line contributes a field iff, after
trimming, it is non-empty, does not start with `//`, and contains
exactly one colon; in that case it is split at that colon into the
trimmed field name and the trimmed declared type with trailing `';'`
characters stripped.  Lines with no colon — or more than one — are
silently skipped, and sibling lines of the same block are unaffected:
parsing a block body is the concatenation of parsing its line groups. -/
theorem C5_amended (line bodyA bodyB : Str) :
    ((parseFieldLine line).isSome = true ↔
      (pyStrip line ≠ [] ∧ (str "//").isPrefixOf (pyStrip line) = false ∧
        (pyStrip line).count ':' = 1)) ∧
    (∀ a b : Str, pyStrip line = a ++ ':' :: b → ':' ∉ a → ':' ∉ b →
      (str "//").isPrefixOf (pyStrip line) = false →
      parseFieldLine line =
        some { name := pyStrip a,
               type := (mapType (rstripSemi (pyStrip b))).1,
               original_type := rstripSemi (pyStrip b),
               is_array := (mapType (rstripSemi (pyStrip b))).2 }) ∧
    (_parse_fields (bodyA ++ '\n' :: bodyB) =
      _parse_fields bodyA ++ _parse_fields bodyB) := by
  refine ⟨?_, ?_, _parse_fields_append bodyA bodyB⟩
  · by_cases h1 : pyStrip line = []
    · simp [parseFieldLine, h1]
    · by_cases h2 : (str "//").isPrefixOf (pyStrip line) = true
      · simp [parseFieldLine, h1, h2]
      · have hlen := splitOnChar_length ':' (pyStrip line)
        simp only [Bool.not_eq_true] at h2
        rcases hsp : splitOnChar ':' (pyStrip line) with _ | ⟨p1, t⟩
        · exact absurd hsp (splitOnChar_ne_nil ':' (pyStrip line))
        · rcases t with _ | ⟨p2, t2⟩
          · rw [hsp] at hlen
            simp only [parseFieldLine, h1, h2, hsp]
            simp only [List.length_cons, List.length_nil] at hlen
            simp [h1, h2]
            omega
          · rcases t2 with _ | ⟨p3, t3⟩
            · rw [hsp] at hlen
              simp only [List.length_cons, List.length_nil] at hlen
              simp [parseFieldLine, h1, h2, hsp]
              omega
            · rw [hsp] at hlen
              simp only [List.length_cons] at hlen
              simp only [parseFieldLine, h1, h2, hsp]
              simp [h1, h2]
              omega
  · intro a b hdec ha hb h2
    have hsplit : splitOnChar ':' (pyStrip line) = [a, b] := by
      rw [hdec, splitOnChar_append, splitOnChar_of_not_mem ha,
        splitOnChar_of_not_mem hb]
      rfl
    have h1 : pyStrip line ≠ [] := by
      rw [hdec]
      simp
    simp only [parseFieldLine, h1, h2, hsplit]
    simp [h1, h2]

/-- Witness for C5 at the line `a: int32;`. -/
theorem C5_amended_witness :
    parseFieldLine (str "a: int32;") =
      some { name := pyStrip (str "a"),
             type := (mapType (rstripSemi (pyStrip (str " int32;")))).1,
             original_type := rstripSemi (pyStrip (str " int32;")),
             is_array := (mapType (rstripSemi (pyStrip (str " int32;")))).2 } :=
  (C5_amended (str "a: int32;") [] []).2.1 (str "a") (str " int32;")
    (by decide) (by decide) (by decide) (by decide)

/-! ### Greedy-scan helper lemmas -/

theorem dropSpaces_concat {ws : Str} {c : Char} {rest : Str}
    (hws : ws.all isSpaceChar = true) (hc : isSpaceChar c = false) :
    (ws ++ c :: rest).dropWhile isSpaceChar = c :: rest := by
  rw [List.dropWhile_append_of_pos (List.all_eq_true.mp hws),
    List.dropWhile_cons_of_neg (by simp [hc])]

theorem scanToken {tok ws : Str} {c : Char} {rest : Str}
    (htok : tok.all isWordChar = true) (hws : ws.all isSpaceChar = true)
    (hc1 : isWordChar c = false) (hc2 : isSpaceChar c = false) :
    (tok ++ (ws ++ c :: rest)).takeWhile isWordChar = tok ∧
    ((tok ++ (ws ++ c :: rest)).dropWhile isWordChar).dropWhile isSpaceChar
      = c :: rest := by
  have hword : ∀ a ∈ tok, isWordChar a := List.all_eq_true.mp htok
  have htw : (ws ++ c :: rest).takeWhile isWordChar = [] := by
    cases ws with
    | nil =>
      simp only [List.nil_append]
      exact List.takeWhile_cons_of_neg (by simp [hc1])
    | cons w ws' =>
      have hw : isSpaceChar w = true := List.all_eq_true.mp hws w (by simp)
      rw [List.cons_append]
      exact List.takeWhile_cons_of_neg (by simp [space_not_word hw])
  have hdw : (ws ++ c :: rest).dropWhile isWordChar = ws ++ c :: rest := by
    cases ws with
    | nil =>
      simp only [List.nil_append]
      exact List.dropWhile_cons_of_neg (by simp [hc1])
    | cons w ws' =>
      have hw : isSpaceChar w = true := List.all_eq_true.mp hws w (by simp)
      rw [List.cons_append]
      exact List.dropWhile_cons_of_neg (by simp [space_not_word hw])
  constructor
  · rw [List.takeWhile_append_of_pos hword, htw, List.append_nil]
  · rw [List.dropWhile_append_of_pos hword, hdw, dropSpaces_concat hws hc2]

theorem all_takeWhile (p : α → Bool) (l : List α) :
    (l.takeWhile p).all p = true :=
  List.all_eq_true.mpr (fun _ hx => List.mem_takeWhile_imp hx)

theorem eq_cons_of_head? {l : List α} {c : α} (h : l.head? = some c) :
    l = c :: l.tail := by
  cases l with
  | nil => simp at h
  | cons x xs =>
    simp only [List.head?_cons, Option.some.injEq] at h
    simp [h]

theorem dropSpaces_before_token {ws tok rest : Str}
    (hws : ws.all isSpaceChar = true) (htok : tok.all isWordChar = true)
    (hne : tok ≠ []) :
    (ws ++ (tok ++ rest)).dropWhile isSpaceChar = tok ++ rest := by
  obtain ⟨c, t', rfl⟩ := List.exists_cons_of_ne_nil hne
  have hc : isWordChar c = true := List.all_eq_true.mp htok c (by simp)
  rw [List.cons_append]
  exact dropSpaces_concat hws (word_not_space hc)

/-! ### C6: method-line matching -/

theorem matchMethodLine_isSome_decomp {l : Str}
    (h : (matchMethodLine l).isSome = true) : MethodLineStart l := by
  simp only [matchMethodLine] at h
  split at h
  case isFalse => simp at h
  case isTrue hC =>
    set n := l.takeWhile isWordChar with hna
    set dw := l.dropWhile isWordChar with hdwa
    set ws1 := dw.takeWhile isSpaceChar with hws1a
    set a1 := dw.dropWhile isSpaceChar with ha1a
    set ws2 := a1.tail.takeWhile isSpaceChar with hws2a
    set l2 := a1.tail.dropWhile isSpaceChar with hl2a
    set r := l2.takeWhile isWordChar with hra
    set dwl2 := l2.dropWhile isWordChar with hdwl2a
    set ws3 := dwl2.takeWhile isSpaceChar with hws3a
    set a2 := dwl2.dropWhile isSpaceChar with ha2a
    set ws4 := a2.tail.takeWhile isSpaceChar with hws4a
    set a3 := a2.tail.dropWhile isSpaceChar with ha3a
    set ws5 := a3.tail.takeWhile isSpaceChar with hws5a
    set l5 := a3.tail.dropWhile isSpaceChar with hl5a
    set t := l5.takeWhile isWordChar with hta
    set rest := l5.dropWhile isWordChar with hresta
    obtain ⟨hn, ha1, hr, ha2, ha3, ht⟩ := hC
    have e1 : l = n ++ dw := (List.takeWhile_append_dropWhile _ _).symm
    have e2 : dw = ws1 ++ a1 := (List.takeWhile_append_dropWhile _ _).symm
    have e3 : a1 = '(' :: a1.tail := eq_cons_of_head? ha1
    have e4 : a1.tail = ws2 ++ l2 := (List.takeWhile_append_dropWhile _ _).symm
    have e5 : l2 = r ++ dwl2 := (List.takeWhile_append_dropWhile _ _).symm
    have e6 : dwl2 = ws3 ++ a2 := (List.takeWhile_append_dropWhile _ _).symm
    have e7 : a2 = ')' :: a2.tail := eq_cons_of_head? ha2
    have e8 : a2.tail = ws4 ++ a3 := (List.takeWhile_append_dropWhile _ _).symm
    have e9 : a3 = ':' :: a3.tail := eq_cons_of_head? ha3
    have e10 : a3.tail = ws5 ++ l5 := (List.takeWhile_append_dropWhile _ _).symm
    have e11 : l5 = t ++ rest := (List.takeWhile_append_dropWhile _ _).symm
    refine ⟨n, ws1, ws2, r, ws3, ws4, ws5, t, rest, ?_, hn,
      hna ▸ all_takeWhile _ _, hr, hra ▸ all_takeWhile _ _, ht,
      hta ▸ all_takeWhile _ _, hws1a ▸ all_takeWhile _ _,
      hws2a ▸ all_takeWhile _ _, hws3a ▸ all_takeWhile _ _,
      hws4a ▸ all_takeWhile _ _, hws5a ▸ all_takeWhile _ _⟩
    calc l = n ++ dw := e1
      _ = n ++ (ws1 ++ '(' :: (ws2 ++ (r ++ (ws3 ++ ')' ::
            (ws4 ++ ':' :: (ws5 ++ (t ++ rest))))))) := by
        rw [e2, e3, e4, e5, e6, e7, e8, e9, e10, e11]

theorem methodLineStart_matches {l : Str} (h : MethodLineStart l) :
    (matchMethodLine l).isSome = true := by
  obtain ⟨n, ws1, ws2, r, ws3, ws4, ws5, t, rest, hl, hn, hnw, hr, hrw,
    ht, htw, hws1, hws2, hws3, hws4, hws5⟩ := h
  subst hl
  have htne : ∀ rest' : Str, (t ++ rest').takeWhile isWordChar ≠ [] := by
    intro rest'
    obtain ⟨tc, t', rfl⟩ := List.exists_cons_of_ne_nil ht
    have htc : isWordChar tc = true := List.all_eq_true.mp htw tc (by simp)
    rw [List.cons_append, List.takeWhile_cons_of_pos htc]
    simp
  simp only [matchMethodLine]
  rw [(scanToken hnw hws1 (by decide : isWordChar '(' = false)
        (by decide : isSpaceChar '(' = false)).1,
      (scanToken hnw hws1 (by decide : isWordChar '(' = false)
        (by decide : isSpaceChar '(' = false)).2]
  simp only [List.tail_cons]
  rw [dropSpaces_before_token hws2 hrw hr]
  rw [(scanToken hrw hws3 (by decide : isWordChar ')' = false)
        (by decide : isSpaceChar ')' = false)).1,
      (scanToken hrw hws3 (by decide : isWordChar ')' = false)
        (by decide : isSpaceChar ')' = false)).2]
  simp only [List.tail_cons]
  rw [dropSpaces_concat hws4 (by decide : isSpaceChar ':' = false)]
  simp only [List.tail_cons]
  rw [dropSpaces_before_token hws5 htw ht]
  rw [if_pos ⟨hn, rfl, hr, rfl, rfl, htne rest⟩]
  rfl

/-- C6 counterexample: the service-body line `Add(Req):Resp junk` does
not match `identifier ( identifier ) : identifier` optionally followed
by `';'` — it has trailing junk — yet the source's `re.match`-based loop
still builds the method `Add`, because the pattern is only anchored at
the start of the line. -/
theorem C6_counterexample :
    _parse_methods [] (str "Add(Req):Resp junk") =
      [{ name := str "Add", ret := str "Resp", request := str "Req",
         response := str "Resp", request_fields := [] }] ∧
    methodLineFullMatchClaim (str "Add(Req):Resp junk") = false := by
  refine ⟨by decide, by decide⟩

/-- Every method the per-line step builds carries `response = return` and
resolves its request fields against the supplied table map. -/
theorem parseMethodLine_shape {tbls : List (Str × List Field)}
    {line : Str} {m : Method} (hm : parseMethodLine tbls line = some m) :
    m.response = m.ret ∧ m.request_fields = dictGet tbls m.request [] := by
  simp only [parseMethodLine] at hm
  split at hm
  · exact absurd hm (by simp)
  split at hm
  · exact absurd hm (by simp)
  split at hm
  · rename_i a b c heq
    injection hm with hm
    subst hm
    exact ⟨rfl, rfl⟩
  · exact absurd hm (by simp)

/-- C6 as amended: a service-body line builds a Method iff, after
trimming, it is non-blank, not a `//` comment, and *starts with*
`identifier ( identifier ) : identifier` — everything after the third
identifier, a `';'` included, is ignored; and every Method that is built
carries a response type name equal to its return type name. -/
theorem C6_amended (tbls : List (Str × List Field)) (line : Str) :
    (∀ m, parseMethodLine tbls line = some m → m.response = m.ret) ∧
    ((parseMethodLine tbls line).isSome = true ↔
      (pyStrip line ≠ [] ∧ (str "//").isPrefixOf (pyStrip line) = false ∧
        MethodLineStart (pyStrip line))) := by
  constructor
  · intro m hm
    exact (parseMethodLine_shape hm).1
  · by_cases h1 : pyStrip line = []
    · simp [parseMethodLine, h1]
    by_cases h2 : (str "//").isPrefixOf (pyStrip line) = true
    · simp [parseMethodLine, h1, h2]
    have key : (parseMethodLine tbls line).isSome
        = (matchMethodLine (pyStrip line)).isSome := by
      rcases hmm : matchMethodLine (pyStrip line) with _ | ⟨a, b, c⟩ <;>
        simp [parseMethodLine, h1, h2, hmm]
    rw [key]
    constructor
    · intro hs
      exact ⟨h1, Bool.eq_false_iff.mpr h2, matchMethodLine_isSome_decomp hs⟩
    · rintro ⟨-, -, hstart⟩
      exact methodLineStart_matches hstart

/-- Witness for C6 at the line `Add(Req):Resp;`. -/
theorem C6_amended_witness :
    pyStrip (str "Add(Req):Resp;") ≠ [] ∧
    (str "//").isPrefixOf (pyStrip (str "Add(Req):Resp;")) = false ∧
    MethodLineStart (pyStrip (str "Add(Req):Resp;")) :=
  (C6_amended [] (str "Add(Req):Resp;")).2.mp (by decide)

/-! ### C3: tables are resolved before methods, last definition wins -/

theorem dictGet_dictInsert (k q : Str) (v : α) (dflt : α) :
    ∀ d : List (Str × α),
      dictGet (dictInsert k v d) q dflt =
        if k = q then v else dictGet d q dflt := by
  intro d
  induction d with
  | nil => simp [dictInsert, dictGet]
  | cons p rest ih =>
    obtain ⟨k1, v1⟩ := p
    by_cases h1 : k1 = k
    · subst h1
      by_cases h2 : k1 = q <;> simp [dictInsert, dictGet, h2]
    · by_cases h2 : k1 = q
      · subst h2
        have hkq : ¬ k = k1 := fun he => h1 he.symm
        simp [dictInsert, dictGet, h1, hkq]
      · simp [dictInsert, dictGet, h1, h2, ih]

theorem dictGet_foldl_ins (q : Str) :
    ∀ (l : List (Str × Str)) (init : List (Str × List Field)),
      dictGet (l.foldl
          (fun acc nb => dictInsert nb.1 (_parse_fields nb.2) acc) init) q []
        = (((l.filter (fun p => p.1 = q)).getLast?).map
            (fun p => _parse_fields p.2)).getD (dictGet init q []) := by
  intro l
  induction l with
  | nil => simp
  | cons nb rest ih =>
    intro init
    obtain ⟨n1, b1⟩ := nb
    rw [List.foldl_cons, ih]
    cases hlast : (rest.filter (fun p => p.1 = q)).getLast? with
    | some p =>
      have hne : rest.filter (fun p => p.1 = q) ≠ [] := by
        intro he
        rw [he] at hlast
        simp at hlast
      obtain ⟨x, xs, hxs⟩ := List.exists_cons_of_ne_nil hne
      by_cases h1 : n1 = q
      · simp only [List.filter_cons]
        rw [if_pos (by simp [h1])]
        rw [hxs, List.getLast?_cons_cons, ← hxs, hlast]
        simp
      · simp only [List.filter_cons]
        rw [if_neg (by simp [h1])]
        rw [hlast]
        simp
    | none =>
      have hemp : rest.filter (fun p => p.1 = q) = [] := by
        cases he : rest.filter (fun p => p.1 = q) with
        | nil => rfl
        | cons x xs =>
          rw [he] at hlast
          simp [List.getLast?_eq_getLast] at hlast
      rw [dictGet_dictInsert]
      by_cases h1 : n1 = q
      · simp [List.filter_cons, h1, hemp, hlast]
      · simp [List.filter_cons, h1, hemp, hlast]

/-- The table map built by `parse` agrees with `dictGet` over the
last-wins fold. -/
theorem parse_tables_eq (content : Str) (q : Str) :
    dictGet (parse content).tables q [] = lastTableFields content q := by
  have h := dictGet_foldl_ins q (findBlocks tableKw content) []
  simp only [parse]
  rw [h]
  simp only [lastTableFields, dictGet]
  cases hlast : ((findBlocks tableKw content).filter (fun p => p.1 = q)).getLast? with
  | some p => simp
  | none => simp

/-- C3: all table blocks are collected (last definition winning) before
any service method resolves its request fields, so every parsed method's
request field list equals the field list of the final definition of the
table named by its request type — wherever in the file that table is
declared — and a method whose request type names no declared table gets
an empty request field list rather than an error. -/
theorem C3_tables_before_methods (content : Str) :
    (∀ svc ∈ (parse content).services, ∀ m ∈ svc.methods,
      m.request_fields = dictGet (parse content).tables m.request []) ∧
    (∀ q : Str, dictGet (parse content).tables q [] = lastTableFields content q) ∧
    (∀ svc ∈ (parse content).services, ∀ m ∈ svc.methods,
      (∀ p ∈ findBlocks tableKw content, p.1 ≠ m.request) →
      m.request_fields = []) := by
  have hmem : ∀ svc ∈ (parse content).services, ∀ m ∈ svc.methods,
      m.request_fields = dictGet (parse content).tables m.request [] := by
    intro svc hsvc m hm
    simp only [parse, List.mem_map] at hsvc
    obtain ⟨nb, hnb, rfl⟩ := hsvc
    simp only [_parse_methods, List.mem_filterMap] at hm
    obtain ⟨line, hline, hsome⟩ := hm
    exact (parseMethodLine_shape hsome).2
  refine ⟨hmem, parse_tables_eq content, ?_⟩
  intro svc hsvc m hm hnone
  rw [hmem svc hsvc m hm, parse_tables_eq content]
  have hfil : (findBlocks tableKw content).filter (fun p => p.1 = m.request) = [] := by
    rw [List.filter_eq_nil_iff]
    intro p hp
    simp [hnone p hp]
  simp [lastTableFields, hfil]

/-- Schema text that declares the service before the table it uses. -/
def svcFirstSchemaText : Str :=
  str "rpc_service S \x7b M(R):T; \x7d\ntable R \x7b x: int32; \x7d"

/-- Witness for C3: with the service declared before the table, the
method's request field list still equals the table-map entry of its
request type. -/
theorem C3_witness :
    (Method.mk (str "M") (str "T") (str "R") (str "T")
        [Field.mk (str "x") (str "int32_t") (str "int32") false]).request_fields
      = dictGet (parse svcFirstSchemaText).tables (str "R") [] :=
  (C3_tables_before_methods svcFirstSchemaText).1
    (Service.mk (str "S")
      [Method.mk (str "M") (str "T") (str "R") (str "T")
        [Field.mk (str "x") (str "int32_t") (str "int32") false]])
    (by decide)
    (Method.mk (str "M") (str "T") (str "R") (str "T")
      [Field.mk (str "x") (str "int32_t") (str "int32") false])
    (by decide)

/-! ### C7: namespace extraction -/

theorem takeSpaces_before_token {ws tok rest : Str}
    (hws : ws.all isSpaceChar = true) (htok : tok.all isWordChar = true)
    (hne : tok ≠ []) :
    (ws ++ (tok ++ rest)).takeWhile isSpaceChar = ws := by
  obtain ⟨c, t', rfl⟩ := List.exists_cons_of_ne_nil hne
  have hc : isWordChar c = true := List.all_eq_true.mp htok c (by simp)
  rw [List.cons_append, List.takeWhile_append_of_pos (List.all_eq_true.mp hws),
      List.takeWhile_cons_of_neg (by simp [word_not_space hc]), List.append_nil]

theorem takeWord_before_delim {tok rest : Str} {c : Char}
    (htok : tok.all isWordChar = true) (hc : isWordChar c = false) :
    (tok ++ c :: rest).takeWhile isWordChar = tok ∧
    (tok ++ c :: rest).dropWhile isWordChar = c :: rest := by
  constructor
  · rw [List.takeWhile_append_of_pos (List.all_eq_true.mp htok),
        List.takeWhile_cons_of_neg (by simp [hc]), List.append_nil]
  · rw [List.dropWhile_append_of_pos (List.all_eq_true.mp htok),
        List.dropWhile_cons_of_neg (by simp [hc])]

theorem matchNamespaceAt_some_iff {l w : Str} :
    matchNamespaceAt l = some w ↔ ∃ ws post, NsStmtAt l [] ws w post := by
  constructor
  · intro h
    simp only [matchNamespaceAt] at h
    split at h
    · exact absurd h (by simp)
    · rename_i l1 hsp
      split at h
      case isFalse => exact absurd h (by simp)
      case isTrue hC =>
        obtain ⟨hws, hw, hsemi⟩ := hC
        injection h with h
        subst h
        have e0 : l = nsLit ++ l1 := stripPrefixCL_eq_some.mp hsp
        have e1 : l1 = l1.takeWhile isSpaceChar ++ l1.dropWhile isSpaceChar :=
          (List.takeWhile_append_dropWhile _ _).symm
        have e2 : l1.dropWhile isSpaceChar =
            (l1.dropWhile isSpaceChar).takeWhile isWordChar ++
              (l1.dropWhile isSpaceChar).dropWhile isWordChar :=
          (List.takeWhile_append_dropWhile _ _).symm
        have e3 : (l1.dropWhile isSpaceChar).dropWhile isWordChar =
            ';' :: ((l1.dropWhile isSpaceChar).dropWhile isWordChar).tail :=
          eq_cons_of_head? hsemi
        refine ⟨l1.takeWhile isSpaceChar,
          ((l1.dropWhile isSpaceChar).dropWhile isWordChar).tail,
          ?_, hws, all_takeWhile _ _, hw, all_takeWhile _ _⟩
        show l = [] ++ (nsLit ++ _)
        rw [List.nil_append, e0]
        conv_lhs => rw [e1, e2, e3]
  · rintro ⟨ws, post, hl, hws, hwsall, hw, hwall⟩
    rw [List.nil_append] at hl
    subst hl
    have hsp : stripPrefixCL nsLit (nsLit ++ (ws ++ (w ++ ';' :: post)))
        = some (ws ++ (w ++ ';' :: post)) := stripPrefixCL_eq_some.mpr rfl
    simp only [matchNamespaceAt, hsp]
    rw [takeSpaces_before_token hwsall hwall hw,
        dropSpaces_before_token hwsall hwall hw,
        (takeWord_before_delim hwall (by decide : isWordChar ';' = false)).1,
        (takeWord_before_delim hwall (by decide : isWordChar ';' = false)).2]
    rw [if_pos ⟨hws, hw, rfl⟩]

theorem nsStmtAt_cons {c : Char} {content pre ws w post : Str} :
    NsStmtAt (c :: content) (c :: pre) ws w post ↔
      NsStmtAt content pre ws w post := by
  simp only [NsStmtAt, List.cons_append, List.cons.injEq, true_and]

theorem nsStmtAt_cons_cases {c : Char} {content pre ws w post : Str}
    (h : NsStmtAt (c :: content) pre ws w post) :
    pre = [] ∨ ∃ pre', pre = c :: pre' ∧ NsStmtAt content pre' ws w post := by
  cases pre with
  | nil => exact Or.inl rfl
  | cons p ps =>
    right
    obtain ⟨heq, h2, h3, h4, h5⟩ := h
    rw [List.cons_append, List.cons.injEq] at heq
    obtain ⟨rfl, heq⟩ := heq
    exact ⟨ps, rfl, heq, h2, h3, h4, h5⟩

theorem findNamespace_eq_none {content : Str}
    (h : findNamespace content = none) :
    ∀ pre ws w post, ¬ NsStmtAt content pre ws w post := by
  induction content with
  | nil =>
    intro pre ws w post hstmt
    have hl := congrArg List.length hstmt.1
    simp only [List.length_nil, List.length_append, List.length_cons] at hl
    omega
  | cons c rest ih =>
    intro pre ws w post hstmt
    simp only [findNamespace] at h
    cases hm : matchNamespaceAt (c :: rest) with
    | some w0 => rw [hm] at h; exact absurd h (by simp)
    | none =>
      rw [hm] at h
      rcases nsStmtAt_cons_cases hstmt with rfl | ⟨pre', rfl, hstmt'⟩
      · exact absurd (matchNamespaceAt_some_iff.mpr ⟨ws, post, hstmt⟩)
          (by simp [hm])
      · exact ih h pre' ws w post hstmt'

theorem findNamespace_eq_some {content w : Str}
    (h : findNamespace content = some w) :
    ∃ pre ws post, NsStmtAt content pre ws w post ∧
      ∀ pre' ws' w' post', NsStmtAt content pre' ws' w' post' →
        pre.length ≤ pre'.length := by
  induction content with
  | nil => exact absurd h (by simp [findNamespace])
  | cons c rest ih =>
    simp only [findNamespace] at h
    cases hm : matchNamespaceAt (c :: rest) with
    | some w0 =>
      rw [hm] at h
      injection h with h
      subst h
      obtain ⟨ws, post, hstmt⟩ := matchNamespaceAt_some_iff.mp hm
      exact ⟨[], ws, post, hstmt, fun _ _ _ _ _ => Nat.zero_le _⟩
    | none =>
      rw [hm] at h
      obtain ⟨pre, ws, post, hstmt, hmin⟩ := ih h
      refine ⟨c :: pre, ws, post, nsStmtAt_cons.mpr hstmt, ?_⟩
      intro pre' ws' w' post' hstmt'
      rcases nsStmtAt_cons_cases hstmt' with rfl | ⟨pre'', rfl, hstmt''⟩
      · exact absurd (matchNamespaceAt_some_iff.mpr ⟨ws', post', hstmt'⟩)
          (by simp [hm])
      · simpa using hmin pre'' ws' w' post' hstmt''

theorem findNamespace_complete {content pre ws w post : Str}
    (hstmt : NsStmtAt content pre ws w post)
    (hmin : ∀ pre' ws' w' post', NsStmtAt content pre' ws' w' post' →
      pre.length ≤ pre'.length) :
    findNamespace content = some w := by
  induction content generalizing pre with
  | nil =>
    have hl := congrArg List.length hstmt.1
    simp only [List.length_nil, List.length_append, List.length_cons] at hl
    omega
  | cons c rest ih =>
    simp only [findNamespace]
    cases hm : matchNamespaceAt (c :: rest) with
    | some w0 =>
      obtain ⟨ws0, post0, hstmt0⟩ := matchNamespaceAt_some_iff.mp hm
      have hpre : pre = [] := by
        have := hmin [] ws0 w0 post0 hstmt0
        simpa using List.length_eq_zero.mp (Nat.le_zero.mp this)
      subst hpre
      have := matchNamespaceAt_some_iff.mpr ⟨ws, post, hstmt⟩
      rw [hm] at this
      injection this with this
      rw [this]
    | none =>
      rcases nsStmtAt_cons_cases hstmt with rfl | ⟨pre', rfl, hstmt'⟩
      · exact absurd (matchNamespaceAt_some_iff.mpr ⟨ws, post, hstmt⟩)
          (by simp [hm])
      · refine ih hstmt' ?_
        intro pre₂ ws₂ w₂ post₂ hstmt₂
        have := hmin (c :: pre₂) ws₂ w₂ post₂ (nsStmtAt_cons.mpr hstmt₂)
        simpa using this

/-- Absence of any namespace statement yields the empty namespace. -/
theorem parse_ns_empty_of_no_stmt {content : Str}
    (hnone : ∀ pre ws w post, ¬ NsStmtAt content pre ws w post) :
    (parse content).ns = [] := by
  have hns : (parse content).ns = (findNamespace content).getD [] := rfl
  cases hfn : findNamespace content with
  | some w =>
    obtain ⟨pre, ws, post, hstmt, -⟩ := findNamespace_eq_some hfn
    exact absurd hstmt (hnone pre ws w post)
  | none =>
    rw [hns, hfn]
    rfl

/-- C7: the parsed namespace is the identifier of the first (leftmost)
`namespace <identifier>;` statement in the schema text, later statements
being ignored; when no such statement occurs the namespace is the empty
string. -/
theorem C7_namespace_extraction (content : Str) :
    (∀ pre ws w post, NsStmtAt content pre ws w post →
      (∀ pre' ws' w' post', NsStmtAt content pre' ws' w' post' →
        pre.length ≤ pre'.length) →
      (parse content).ns = w) ∧
    ((∀ pre ws w post, ¬ NsStmtAt content pre ws w post) →
      (parse content).ns = []) := by
  have hns : (parse content).ns = (findNamespace content).getD [] := rfl
  constructor
  · intro pre ws w post hstmt hmin
    rw [hns, findNamespace_complete hstmt hmin]
    rfl
  · exact parse_ns_empty_of_no_stmt

/-- Witness for C7 at the schema text `namespace Foo;`. -/
theorem C7_namespace_extraction_witness :
    (parse (str "namespace Foo;")).ns = str "Foo" :=
  (C7_namespace_extraction (str "namespace Foo;")).1 [] (str " ")
    (str "Foo") []
    ⟨by decide, by decide, by decide, by decide, by decide⟩
    (fun _ _ _ _ _ => Nat.zero_le _)

/-! ### C9: totality and defaults of the parser -/

theorem matchBlockAt_some_decomp {kw l n b rem : Str}
    (h : matchBlockAt kw l = some (n, b, rem)) :
    ∃ ws1 ws2, BlockStmtAt kw l [] ws1 n ws2 b rem := by
  simp only [matchBlockAt] at h
  split at h
  · exact absurd h (by simp)
  rename_i l1 hsp
  split at h
  case isFalse => exact absurd h (by simp)
  case isTrue hC =>
    set ws1v := l1.takeWhile isSpaceChar with hws1a
    set l2 := l1.dropWhile isSpaceChar with hl2a
    set nv := l2.takeWhile isWordChar with hna
    set dwl2 := l2.dropWhile isWordChar with hdwl2a
    set ws2v := dwl2.takeWhile isSpaceChar with hws2a
    set a1 := dwl2.dropWhile isSpaceChar with ha1a
    set bv := a1.tail.takeWhile (fun c => c != '}') with hba
    set a2 := a1.tail.dropWhile (fun c => c != '}') with ha2a
    obtain ⟨hws1, hn, hbrace, hb, hclose⟩ := hC
    injection h with h
    obtain ⟨rfl, rfl, rfl⟩ : nv = n ∧ bv = b ∧ a2.tail = rem := by
      simpa using h
    have e0 : l = kw ++ l1 := stripPrefixCL_eq_some.mp hsp
    have e1 : l1 = ws1v ++ l2 := (List.takeWhile_append_dropWhile _ _).symm
    have e2 : l2 = nv ++ dwl2 := (List.takeWhile_append_dropWhile _ _).symm
    have e3 : dwl2 = ws2v ++ a1 := (List.takeWhile_append_dropWhile _ _).symm
    have e4 : a1 = '{' :: a1.tail := eq_cons_of_head? hbrace
    have e5 : a1.tail = bv ++ a2 := (List.takeWhile_append_dropWhile _ _).symm
    have e6 : a2 = '}' :: a2.tail := eq_cons_of_head? hclose
    refine ⟨ws1v, ws2v, ?_, hws1, hws1a ▸ all_takeWhile _ _, hn,
      hna ▸ all_takeWhile _ _, hws2a ▸ all_takeWhile _ _, hb,
      hba ▸ all_takeWhile _ _⟩
    show l = [] ++ (kw ++ (ws1v ++ (nv ++ (ws2v ++ '{' :: (bv ++ '}' :: a2.tail)))))
    rw [List.nil_append, e0]
    conv_lhs => rw [e1, e2, e3, e4, e5, e6]

theorem findBlocksAux_ne_nil {kw : Str} :
    ∀ (fuel : Nat) (l : Str), findBlocksAux kw fuel l ≠ [] →
      ∃ pre rest nbr, l = pre ++ rest ∧ matchBlockAt kw rest = some nbr := by
  intro fuel
  induction fuel with
  | zero =>
    intro l h
    simp [findBlocksAux] at h
  | succ f ih =>
    intro l h
    cases l with
    | nil => simp [findBlocksAux] at h
    | cons c restl =>
      cases hm : matchBlockAt kw (c :: restl) with
      | some nbr => exact ⟨[], c :: restl, nbr, rfl, hm⟩
      | none =>
        simp only [findBlocksAux, hm] at h
        obtain ⟨pre, rest, nbr, heq, hmm⟩ := ih restl h
        exact ⟨c :: pre, rest, nbr, by rw [List.cons_append, ← heq], hmm⟩

/-- A nonempty scan yields a declarative block occurrence. -/
theorem findBlocks_ne_nil_decomp {kw content : Str}
    (h : findBlocks kw content ≠ []) :
    ∃ pre ws1 n ws2 b rem, BlockStmtAt kw content pre ws1 n ws2 b rem := by
  obtain ⟨pre, rest, ⟨n, b, rem⟩, heq, hm⟩ := findBlocksAux_ne_nil _ _ h
  obtain ⟨ws1, ws2, hstmt⟩ := matchBlockAt_some_decomp hm
  obtain ⟨hrest, h2, h3, h4, h5, h6, h7, h8⟩ := hstmt
  rw [List.nil_append] at hrest
  refine ⟨pre, ws1, n, ws2, b, rem, ?_, h2, h3, h4, h5, h6, h7, h8⟩
  rw [heq, hrest]

/-- C9: the schema parser is total — the embedding is a plain Lean
function defined on arbitrary schema text, and the Python original
raises on no input — and the absence of a construct yields the default: no
`namespace <identifier>;` statement gives the empty namespace, no
`table <Name> { <body> }` block gives the empty table map, no
`rpc_service <Name> { <body> }` block gives the empty service list. -/
theorem C9_parse_total_defaults (content : Str) :
    ((∀ pre ws w post, ¬ NsStmtAt content pre ws w post) →
      (parse content).ns = []) ∧
    ((∀ pre ws1 n ws2 b rem, ¬ BlockStmtAt tableKw content pre ws1 n ws2 b rem) →
      (parse content).tables = []) ∧
    ((∀ pre ws1 n ws2 b rem,
        ¬ BlockStmtAt serviceKw content pre ws1 n ws2 b rem) →
      (parse content).services = []) := by
  refine ⟨parse_ns_empty_of_no_stmt, ?_, ?_⟩
  · intro hnone
    have hblocks : findBlocks tableKw content = [] := by
      by_contra hne
      obtain ⟨pre, ws1, n, ws2, b, rem, hstmt⟩ := findBlocks_ne_nil_decomp hne
      exact hnone pre ws1 n ws2 b rem hstmt
    have : (parse content).tables = (findBlocks tableKw content).foldl
        (fun acc nb => dictInsert nb.1 (_parse_fields nb.2) acc) [] := rfl
    rw [this, hblocks]
    rfl
  · intro hnone
    have hblocks : findBlocks serviceKw content = [] := by
      by_contra hne
      obtain ⟨pre, ws1, n, ws2, b, rem, hstmt⟩ := findBlocks_ne_nil_decomp hne
      exact hnone pre ws1 n ws2 b rem hstmt
    have : (parse content).services = (findBlocks serviceKw content).map
        (fun nb => { name := nb.1,
                     methods := _parse_methods ((findBlocks tableKw content).foldl
                       (fun acc nb => dictInsert nb.1 (_parse_fields nb.2) acc) [])
                       nb.2 : Service }) := rfl
    rw [this, hblocks]
    rfl

/-- Witness for C9 at the empty schema text. -/
theorem C9_parse_total_defaults_witness :
    (parse (str "")).ns = [] ∧ (parse (str "")).tables = [] ∧
    (parse (str "")).services = [] := by
  have hlen0 : (str "").length = 0 := by decide
  have hns : ∀ pre ws w post : Str, ¬ NsStmtAt (str "") pre ws w post := by
    intro pre ws w post h
    have hl := congrArg List.length h.1
    simp only [List.length_append, List.length_cons] at hl
    omega
  have hblk : ∀ kw : Str, ∀ pre ws1 n ws2 b rem : Str,
      ¬ BlockStmtAt kw (str "") pre ws1 n ws2 b rem := by
    intro kw pre ws1 n ws2 b rem h
    have hl := congrArg List.length h.1
    simp only [List.length_append, List.length_cons] at hl
    omega
  exact ⟨(C9_parse_total_defaults (str "")).1 hns,
    (C9_parse_total_defaults (str "")).2.1 (hblk tableKw),
    (C9_parse_total_defaults (str "")).2.2 (hblk serviceKw)⟩

end UVRPC
